import Mathlib

/-!
Verification of the TcpSocketMCP connection/buffer engine and hex codec.

Definitions are shallow embeddings of:
  * `src/tcp-socket-mcp/src/tcp_socket_mcp/connection.py` (class `TCPConnection`)
  * `src/src/TcpSocketMCP/server.py` (`TCPSocketServer._parse_hex_string`,
    and the `chunk.hex()` encoding used by `_handle_read_buffer`)

Bytes are `Nat` values (< 256 where it matters); Python strings are `List Char`.
Python builtins (`bytes.fromhex`, `int(s, 16)`, `str.replace`, UTF-8
encode/decode, `re` scanning for the fixed pattern used by the code) are
modelled explicitly below, each with a comment naming the builtin.
-/

/-- Python `str.isxdigit`-style test used by the regex class `[0-9a-fA-F]`
and by `bytes.fromhex`. -/
def isHexDigit (c : Char) : Bool :=
  decide ((48 ≤ c.toNat ∧ c.toNat ≤ 57) ∨ (97 ≤ c.toNat ∧ c.toNat ≤ 102) ∨
    (65 ≤ c.toNat ∧ c.toNat ≤ 70))

/-- Numeric value of a hex digit character (0 for non-digits). -/
def hexVal (c : Char) : Nat :=
  if 48 ≤ c.toNat ∧ c.toNat ≤ 57 then c.toNat - 48
  else if 97 ≤ c.toNat ∧ c.toNat ≤ 102 then c.toNat - 87
  else if 65 ≤ c.toNat ∧ c.toNat ≤ 70 then c.toNat - 55
  else 0

/-- Lowercase hex digit for a value below 16, as produced by Python
`bytes.hex()`. -/
def hexDigitChar (n : Nat) : Char :=
  if n < 10 then Char.ofNat (48 + n) else Char.ofNat (87 + n)

/-- Model of Python `bytes.hex()` (used by `_handle_read_buffer` for
`format == "hex"`): lowercase hex pairs, no separators, no prefix. -/
def encode_hex (bs : List Nat) : List Char :=
  bs.flatMap (fun b => [hexDigitChar (b / 16), hexDigitChar (b % 16)])

/-- One step of Python `str.replace(pat, "")` for a two-character pattern
`a ++ b`: remove every non-overlapping occurrence, scanning left to right. -/
def remove2 (a b : Char) : List Char → List Char
  | [] => []
  | [c] => [c]
  | c1 :: c2 :: rest =>
    if c1 = a ∧ c2 = b then remove2 a b rest
    else c1 :: remove2 a b (c2 :: rest)

/-- The cleaning pass of `_parse_hex_string`:
`hex_str.replace("0x","").replace("0X","").replace(" ","").replace("\n","").replace("\r","")`. -/
def cleanHex (s : List Char) : List Char :=
  ((((remove2 '0' 'x' s |> remove2 '0' 'X').filter
      (fun c => c ≠ ' ')).filter
      (fun c => c ≠ Char.ofNat 10)).filter
      (fun c => c ≠ Char.ofNat 13))

/-- The ASCII characters CPython's `Py_ISSPACE` treats as whitespace:
skipped between pairs by `bytes.fromhex` and stripped by `int()`. -/
def isPySpace (c : Char) : Bool :=
  decide (c.toNat = 32 ∨ c.toNat = 9 ∨ c.toNat = 10 ∨ c.toNat = 13 ∨
    c.toNat = 11 ∨ c.toNat = 12)

/-- Model of Python `bytes.fromhex`: ASCII whitespace is skipped between
digit pairs (also before the first and after the last pair), each pair is
two adjacent hex digits; `none` models the `ValueError` on a lone digit,
on whitespace inside a pair, or on any other character. -/
def bytesFromHex : List Char → Option (List Nat)
  | [] => some []
  | c1 :: rest =>
    if isPySpace c1 = true then bytesFromHex rest
    else
      match rest with
      | [] => none
      | c2 :: rest2 =>
        if isHexDigit c1 = true ∧ isHexDigit c2 = true then
          (bytesFromHex rest2).map (fun bs => (hexVal c1 * 16 + hexVal c2) :: bs)
        else none

/-- Model of Python `'\\x' in hex_str`: the two-character substring
backslash-`x` occurs somewhere. -/
def containsBX : List Char → Bool
  | [] => false
  | [_] => false
  | c :: d :: rest => (decide (c = '\\') && decide (d = 'x')) || containsBX (d :: rest)

/-- UTF-8 encoding of one character, as Python `str.encode("utf-8")` does
per code point. -/
def utf8EncodeChar (c : Char) : List Nat :=
  let n := c.toNat
  if n < 128 then [n]
  else if n < 2048 then [192 + n / 64, 128 + n % 64]
  else if n < 65536 then [224 + n / 4096, 128 + n / 64 % 64, 128 + n % 64]
  else [240 + n / 262144, 128 + n / 4096 % 64, 128 + n / 64 % 64, 128 + n % 64]

/-- Model of Python `str.encode("utf-8")`. -/
def utf8Encode (s : List Char) : List Nat := s.flatMap utf8EncodeChar

deriving instance DecidableEq for Except

/-- Model of the non-overlapping leftmost scan that `re.findall`, `re.sub`
and `re.split` all perform for the fixed pattern `\\x([0-9a-fA-F]{2})` in
`_parse_hex_string`: each position either starts a match (backslash, `x`,
two hex digits — consumed as one token carrying its digit pair) or
contributes one literal character. -/
def escSplit : List Char → List (Char ⊕ (Char × Char))
  | [] => []
  | [c] => [.inl c]
  | [c, d] => [.inl c, .inl d]
  | [c, d, e] => [.inl c, .inl d, .inl e]
  | c :: d :: e :: f :: rest =>
    if c = '\\' ∧ d = 'x' ∧ isHexDigit e = true ∧ isHexDigit f = true then
      .inr (e, f) :: escSplit rest
    else
      .inl c :: escSplit (d :: e :: f :: rest)

/-- The byte values of the matches, i.e. Python
`[int(m, 16) for m in re.findall(pattern, hex_str)]`. -/
def escMatches (sp : List (Char ⊕ (Char × Char))) : List Nat :=
  sp.filterMap (fun t => match t with
    | .inl _ => none
    | .inr (a, b) => some (hexVal a * 16 + hexVal b))

/-- One character of Python `re.sub(pattern, '\x00', hex_str)`: a literal
character stays, a match becomes one NUL. -/
def escNul (t : Char ⊕ (Char × Char)) : Char :=
  match t with
  | .inl c => c
  | .inr _ => Char.ofNat 0

/-- Regrouping the scan tokens into the parts that
`re.split(r'(\\x[0-9a-fA-F]{2})', hex_str)` yields: maximal literal runs
(accumulated in reverse in `acc`) interleaved with the matched
four-character escape strings.  Empty literal parts are omitted; the
consuming loop skips empty strings anyway. -/
def groupLitsAux : List Char → List (Char ⊕ (Char × Char)) → List (List Char)
  | acc, [] => if acc.isEmpty then [] else [acc.reverse]
  | acc, .inl c :: rest => groupLitsAux (c :: acc) rest
  | acc, .inr (a, b) :: rest =>
    if acc.isEmpty then ['\\', 'x', a, b] :: groupLitsAux [] rest
    else acc.reverse :: ['\\', 'x', a, b] :: groupLitsAux [] rest

def groupLits (sp : List (Char ⊕ (Char × Char))) : List (List Char) :=
  groupLitsAux [] sp

/-- Python `part.startswith('\\x') and len(part) == 4`. -/
def isEscShape (l : List Char) : Bool :=
  match l with
  | [c1, c2, _, _] => decide (c1 = '\\') && decide (c2 = 'x')
  | _ => false

/-- Model of Python `int(s, 16)` restricted to the two-character slice
`part[2:]` it is applied to: two hex digits, or an optional sign or a
stray whitespace character next to a single digit; `none` models the
`ValueError` on anything else.  The model covers the ASCII alphabet only:
the non-ASCII Unicode digit and whitespace characters that CPython's
`int()` would also accept are outside its scope, and no theorem below
evaluates it there. -/
def pyIntHex2 (a b : Char) : Option Int :=
  if isHexDigit a = true ∧ isHexDigit b = true then
    some ((hexVal a : Int) * 16 + (hexVal b : Int))
  else if a = '+' ∧ isHexDigit b = true then some ((hexVal b : Int))
  else if a = '-' ∧ isHexDigit b = true then some (-(hexVal b : Int))
  else if isPySpace a = true ∧ isHexDigit b = true then some ((hexVal b : Int))
  else if isHexDigit a = true ∧ isPySpace b = true then some ((hexVal a : Int))
  else none

/-- The mixed-content loop of `_parse_hex_string`: for each part, a
four-character `\xNN`-shaped part goes through `int(part[2:], 16)` and
`bytearray.append` (which models as: value must lie in `[0, 256)`,
otherwise a `ValueError` — the `.error` case), an empty part is skipped,
and any other part contributes its UTF-8 bytes. -/
def mixedParse : List (List Char) → Except Unit (List Nat)
  | [] => .ok []
  | part :: rest =>
    if isEscShape part = true then
      match pyIntHex2 (part.getD 2 ' ') (part.getD 3 ' ') with
      | some v =>
        if 0 ≤ v ∧ v < 256 then
          Except.map (fun bs => v.toNat :: bs) (mixedParse rest)
        else .error ()
      | none => .error ()
    else if part.isEmpty then mixedParse rest
    else Except.map (fun bs => utf8Encode part ++ bs) (mixedParse rest)

/-- Shallow embedding of `TCPSocketServer._parse_hex_string`
(src/src/TcpSocketMCP/server.py, lines 35-69).  `.error ()` models an
uncaught Python exception escaping the method. -/
def parse_hex_string (s : List Char) : Except Unit (List Nat) :=
  let clean := cleanHex s
  if containsBX s = true then
    let sp := escSplit s
    let ms := escMatches sp
    let remaining := sp.map escNul
    if remaining ≠ [] ∧ remaining ≠ List.replicate ms.length (Char.ofNat 0) then
      mixedParse (groupLits sp)
    else .ok ms
  else
    match bytesFromHex clean with
    | some bs => .ok bs
    | none => .ok (utf8Encode s)

example : parse_hex_string "48656C6C6F".data = .ok [72, 101, 108, 108, 111] := by decide
example : parse_hex_string "48 65 6c 6c 6f".data = .ok [72, 101, 108, 108, 111] := by decide
example : parse_hex_string "0x48656C6C6F".data = .ok [72, 101, 108, 108, 111] := by decide
example : parse_hex_string ['\\', 'x', '4', '8', '\\', 'x', '6', '5'] = .ok [72, 101] := by decide
example : parse_hex_string ['H', 'i', '\\', 'x', '0', 'D'] = .ok [72, 105, 13] := by decide
example : parse_hex_string ['\\', 'x', 'Z', 'Z'] = .error () := by decide
example : parse_hex_string "not-valid-hex!".data = .ok (utf8Encode "not-valid-hex!".data) := by decide

/-- Continuation byte test for UTF-8 (`0x80..0xBF`). -/
def isCont (b : Nat) : Bool := decide (128 ≤ b ∧ b < 192)

/-- Model of Python `bytes.decode('utf-8', errors='ignore')` as used by
`_check_triggers`: well-formed sequences decode to their code point,
offending lead bytes are skipped, truncated tails are dropped.
The recursion is driven by an explicit fuel argument (one unit per decoded
or skipped lead byte, so the list length is always enough fuel); this keeps
the definition structurally recursive and hence kernel-evaluable. -/
def utf8DecodeIgnoreFuel : Nat → List Nat → List Char
  | 0, _ => []
  | _ + 1, [] => []
  | fuel + 1, b1 :: t1 =>
    if b1 < 128 then Char.ofNat b1 :: utf8DecodeIgnoreFuel fuel t1
    else if 194 ≤ b1 ∧ b1 ≤ 223 then
      match t1 with
      | [] => []
      | b2 :: t2 =>
        if isCont b2 = true then
          Char.ofNat ((b1 - 192) * 64 + (b2 - 128)) :: utf8DecodeIgnoreFuel fuel t2
        else utf8DecodeIgnoreFuel fuel t1
    else if 224 ≤ b1 ∧ b1 ≤ 239 then
      match t1 with
      | b2 :: b3 :: t3 =>
        if (isCont b2 = true ∧ isCont b3 = true) ∧
            (b1 = 224 → 160 ≤ b2) ∧ (b1 = 237 → b2 < 160) then
          Char.ofNat ((b1 - 224) * 4096 + (b2 - 128) * 64 + (b3 - 128)) ::
            utf8DecodeIgnoreFuel fuel t3
        else utf8DecodeIgnoreFuel fuel t1
      | _ => []
    else if 240 ≤ b1 ∧ b1 ≤ 244 then
      match t1 with
      | b2 :: b3 :: b4 :: t4 =>
        if (isCont b2 = true ∧ isCont b3 = true ∧ isCont b4 = true) ∧
            (b1 = 240 → 144 ≤ b2) ∧ (b1 = 244 → b2 < 144) then
          Char.ofNat ((b1 - 240) * 262144 + (b2 - 128) * 4096 +
            (b3 - 128) * 64 + (b4 - 128)) :: utf8DecodeIgnoreFuel fuel t4
        else utf8DecodeIgnoreFuel fuel t1
      | _ => []
    else utf8DecodeIgnoreFuel fuel t1

def utf8DecodeIgnore (l : List Nat) : List Char :=
  utf8DecodeIgnoreFuel l.length l

/-- Outcome of one `re.search(pattern, data_str)` call: a match, no match,
or a raised exception (e.g. `re.error` for an invalid pattern — patterns
are never validated at registration). -/
inductive SearchOutcome
  | found
  | notFound
  | err
deriving DecidableEq

/-- State of one `TCPConnection`
(src/tcp-socket-mcp/src/tcp_socket_mcp/connection.py).  `triggers` is the
Python dict `pattern -> (trigger_id, response)` as an insertion-ordered
association list.  `writerPresent` models `self.writer is not None`.
`wire` and `send_calls` are ghost observables: the payloads of successful
socket writes, and of every `send()` invocation, in order. -/
structure TCPConnection where
  connection_id : List Char
  host : List Char
  port : Nat
  buffer : List (List Nat)
  triggers : List (List Char × List Char × List Nat)
  connected : Bool
  writerPresent : Bool
  bytes_sent : Nat
  bytes_received : Nat
  wire : List (List Nat)
  send_calls : List (List Nat)
deriving DecidableEq

/-- `TCPConnection.__init__`. -/
def mkTCPConnection (cid host : List Char) (port : Nat) : TCPConnection :=
  { connection_id := cid, host := host, port := port, buffer := [],
    triggers := [], connected := false, writerPresent := false,
    bytes_sent := 0, bytes_received := 0, wire := [], send_calls := [] }

/-- `TCPConnection.send` (lines 66-80).  `ioError` models
`self.writer.write` / `await self.writer.drain()` raising. -/
def send (st : TCPConnection) (data : List Nat) (ioError : Bool) :
    Bool × TCPConnection :=
  let st := { st with send_calls := st.send_calls ++ [data] }
  if st.connected = false ∨ st.writerPresent = false then (false, st)
  else if ioError then (false, { st with connected := false })
  else (true, { st with bytes_sent := st.bytes_sent + data.length,
                        wire := st.wire ++ [data] })

/-- The `for pattern, (trigger_id, response) in self.triggers.items()`
loop of `_check_triggers` (lines 106-115).  A `.err` search outcome models
`re.search` raising: the exception is caught by the `try` that wraps the
whole loop, so iteration stops there.  A `.found` outcome dispatches
`send`; `errs` supplies the I/O-error oracle of the successive sends. -/
def checkLoop (srch : List Char → List Char → SearchOutcome)
    (text : List Char) :
    List (List Char × List Char × List Nat) → TCPConnection → List Bool →
      TCPConnection
  | [], st, _ => st
  | (pat, _tid, resp) :: rest, st, errs =>
    match srch pat text with
    | .err => st
    | .notFound => checkLoop srch text rest st errs
    | .found => checkLoop srch text rest (send st resp (errs.headD false)).2 errs.tail

/-- `TCPConnection._check_triggers` on one received chunk. -/
def checkTriggers (st : TCPConnection) (data : List Nat)
    (srch : List Char → List Char → SearchOutcome) (errs : List Bool) :
    TCPConnection :=
  checkLoop srch (utf8DecodeIgnore data) st.triggers st errs

/-- Python `l[i]` index normalization for slice bounds: negative indices
count from the end, results are clamped to `[0, len]`. -/
def pyNormIdx (len : Nat) (i : Int) : Nat :=
  if i < 0 then ((len : Int) + i).toNat else min i.toNat len

/-- Python list slice `l[a:b]`. -/
def pySlice {α : Type} (l : List α) (a b : Int) : List α :=
  let s := pyNormIdx l.length a
  let e := pyNormIdx l.length b
  (l.drop s).take (e - s)

/-- `TCPConnection.read_buffer` (lines 117-129).  The `.copy()` calls only
matter for aliasing and are dropped. -/
def read_buffer (st : TCPConnection) (index count : Option Int) :
    List (List Nat) :=
  match index with
  | none => st.buffer
  | some i =>
    match count with
    | none =>
      if i < (st.buffer.length : Int) then pySlice st.buffer i st.buffer.length
      else []
    | some c =>
      let e : Int := min (i + c) (st.buffer.length : Int)
      if i < (st.buffer.length : Int) then pySlice st.buffer i e
      else []

/-- `TCPConnection.clear_buffer` (lines 131-134). -/
def clear_buffer (st : TCPConnection) : TCPConnection :=
  { st with buffer := [] }

/-- Result of `TCPConnection.get_buffer_info` (lines 136-147). -/
structure BufferInfo where
  connection_id : List Char
  chunks : Nat
  total_bytes : Nat
  bytes_sent : Nat
  bytes_received : Nat
  connected : Bool
deriving DecidableEq

/-- `TCPConnection.get_buffer_info`. -/
def get_buffer_info (st : TCPConnection) : BufferInfo :=
  { connection_id := st.connection_id,
    chunks := st.buffer.length,
    total_bytes := (st.buffer.map List.length).sum,
    bytes_sent := st.bytes_sent,
    bytes_received := st.bytes_received,
    connected := st.connected }

/-- `TCPConnection.add_trigger` (lines 149-151): Python dict assignment
`self.triggers[pattern] = (trigger_id, response)` — an existing pattern
key keeps its position and gets the new value, a new key is appended. -/
def add_trigger (st : TCPConnection) (trigger_id pattern : List Char)
    (response : List Nat) : TCPConnection :=
  if st.triggers.any (fun t => t.1 = pattern) then
    { st with triggers := (st.triggers.map
        (fun t => if t.1 = pattern then (pattern, trigger_id, response) else t)) }
  else
    { st with triggers := st.triggers ++ [(pattern, trigger_id, response)] }

/-- Helper for `remove_trigger`: delete the first entry whose stored id
matches, returning `none` when no entry matches. -/
def removeFirstTid (tid : List Char) :
    List (List Char × List Char × List Nat) →
      Option (List (List Char × List Char × List Nat))
  | [] => none
  | t :: rest =>
    if t.2.1 = tid then some rest
    else (removeFirstTid tid rest).map (fun l => t :: l)

/-- `TCPConnection.remove_trigger` (lines 153-159). -/
def remove_trigger (st : TCPConnection) (trigger_id : List Char) :
    Bool × TCPConnection :=
  match removeFirstTid trigger_id st.triggers with
  | some l => (true, { st with triggers := l })
  | none => (false, st)

/-- `TCPConnection.disconnect` (lines 44-64): flips `connected`, cancels
the read task, releases reader/writer. -/
def disconnect (st : TCPConnection) : TCPConnection :=
  { st with connected := false, writerPresent := false }

/-- Reachable states of one `TCPConnection`, paired with the history of
all chunks the receive loop ever appended to the buffer (also the ones a
later `clear_buffer` removed).  Each constructor is one operation of the
class; `read_buffer`, `get_buffer_info` and `get_triggers` do not change
the state and need no constructor. -/
inductive Reachable : TCPConnection → List (List Nat) → Prop
  | init (cid host : List Char) (port : Nat) :
      Reachable (mkTCPConnection cid host port) []
  | connect_ok {st h} : Reachable st h →
      Reachable { st with connected := true, writerPresent := true } h
  | connect_fail {st h} : Reachable st h →
      Reachable { st with connected := false } h
  | recv {st h} (data : List Nat)
      (srch : List Char → List Char → SearchOutcome) (errs : List Bool)
      (hne : data ≠ []) (hc : st.connected = true) : Reachable st h →
      Reachable (checkTriggers
        { st with buffer := st.buffer ++ [data],
                  bytes_received := st.bytes_received + data.length }
        data srch errs) (h ++ [data])
  | remote_close {st h} : Reachable st h →
      Reachable { st with connected := false } h
  | read_error {st h} : Reachable st h →
      Reachable { st with connected := false } h
  | send_op {st h} (data : List Nat) (ioError : Bool) : Reachable st h →
      Reachable (send st data ioError).2 h
  | clear_op {st h} : Reachable st h → Reachable (clear_buffer st) h
  | add_trigger_op {st h} (tid pat : List Char) (resp : List Nat) :
      Reachable st h → Reachable (add_trigger st tid pat resp) h
  | remove_trigger_op {st h} (tid : List Char) : Reachable st h →
      Reachable (remove_trigger st tid).2 h
  | disconnect_op {st h} : Reachable st h → Reachable (disconnect st) h

/-- A concrete connection state used by witnesses and counterexamples:
three one-byte chunks in the buffer, a live socket. -/
def sampleConn : TCPConnection :=
  { connection_id := ['c', '1'], host := ['h'], port := 7,
    buffer := [[0], [1], [2]], triggers := [], connected := true,
    writerPresent := true, bytes_sent := 0, bytes_received := 3,
    wire := [], send_calls := [] }

example : read_buffer sampleConn none none = [[0], [1], [2]] := by decide
example : read_buffer sampleConn (some 1) none = [[1], [2]] := by decide
example : read_buffer sampleConn (some 1) (some 1) = [[1]] := by decide
example : read_buffer sampleConn (some 10) none = [] := by decide
example : read_buffer sampleConn (some (-1)) none = [[2]] := by decide
example : read_buffer sampleConn (some (-2)) (some 2) = [] := by decide
example : utf8DecodeIgnore [72, 105, 255, 33] = ['H', 'i', '!'] := by decide
example : (send sampleConn [9, 9] false).2.bytes_sent = 2 := by decide

theorem pySlice_natCast {α : Type} (l : List α) (i j : Nat) :
    pySlice l (i : Int) (j : Int) = (l.drop i).take (min j l.length - i) := by
  unfold pySlice pyNormIdx
  have hi : ¬ ((i : Int) < 0) := by omega
  have hj : ¬ ((j : Int) < 0) := by omega
  have hti : ((i : Int)).toNat = i := by omega
  have htj : ((j : Int)).toNat = j := by omega
  simp only [hi, hj, if_false, hti, htj]
  rcases le_or_lt i l.length with h | h
  · rw [min_eq_left h]
  · rw [min_eq_right h.le, List.drop_length, List.drop_eq_nil_of_le h.le]
    simp

/-- Claim C2: with non-negative arguments, `read_buffer()` returns the
whole chunk sequence in arrival order, `read_buffer(index)` the chunks
from `index` to the end, `read_buffer(index, count)` the sub-range
`[index, index+count)` clamped to the buffer length, and any
`index >= len(buffer)` yields the empty sequence rather than an error. -/
theorem read_buffer_spec (st : TCPConnection) (i c : Nat) :
    read_buffer st none none = st.buffer ∧
    read_buffer st none (some (c : Int)) = st.buffer ∧
    read_buffer st (some (i : Int)) none = st.buffer.drop i ∧
    read_buffer st (some (i : Int)) (some (c : Int)) = (st.buffer.drop i).take c ∧
    (st.buffer.length ≤ i →
      read_buffer st (some (i : Int)) none = [] ∧
      read_buffer st (some (i : Int)) (some (c : Int)) = []) := by
  have h3 : read_buffer st (some (i : Int)) none = st.buffer.drop i := by
    simp only [read_buffer]
    rcases lt_or_le i st.buffer.length with h | h
    · rw [if_pos (by omega)]
      rw [pySlice_natCast]
      rw [min_self]
      exact List.take_of_length_le (by simp)
    · rw [if_neg (by omega), Eq.comm]
      exact List.drop_eq_nil_of_le h
  have h4 : read_buffer st (some (i : Int)) (some (c : Int)) =
      (st.buffer.drop i).take c := by
    simp only [read_buffer]
    rcases lt_or_le i st.buffer.length with h | h
    · rw [if_pos (by omega)]
      have : (min ((i : Int) + (c : Int)) ((st.buffer.length : Int))) =
          ((min (i + c) st.buffer.length : Nat) : Int) := by omega
      rw [this, pySlice_natCast]
      rw [List.take_eq_take]
      simp only [List.length_take, List.length_drop]
      omega
    · rw [if_neg (by omega), Eq.comm]
      rw [List.drop_eq_nil_of_le h]
      simp
  refine ⟨rfl, rfl, h3, h4, fun h => ⟨?_, ?_⟩⟩
  · rw [h3]; exact List.drop_eq_nil_of_le h
  · rw [h4, List.drop_eq_nil_of_le h]; simp

theorem read_buffer_spec_witness :
    sampleConn.buffer.length ≤ 10 ∧
    read_buffer sampleConn (some ((10 : Nat) : Int)) none = [] ∧
    read_buffer sampleConn (some ((1 : Nat) : Int)) (some ((1 : Nat) : Int)) =
      (sampleConn.buffer.drop 1).take 1 := by
  refine ⟨by decide, ((read_buffer_spec sampleConn 10 5).2.2.2.2 (by decide)).1,
    (read_buffer_spec sampleConn 1 1).2.2.2.1⟩

/-- Counterexample to claim C10 as stated: `read_buffer(-2, 2)` on the
three-chunk buffer returns the empty sequence, not the trailing chunks.
The end bound `min(index + count, len)` crosses zero and is then
re-interpreted by Python slice normalization. -/
theorem read_buffer_neg_count_counterexample :
    read_buffer sampleConn (some (-2)) (some 2) = [] := by decide

/-- Claim C10 (amended): for `-len <= index < 0`, `read_buffer(index)`
with no count returns the trailing `-index` chunks (never empty, never an
error).  With a count, the code computes `end = min(index+count, len)` and
returns the Python slice `buffer[index:end]`: the trailing sub-range of
`count` chunks while `index+count < 0`, everything from `index` on when
`index+count >= len`, but only `(count - len)` chunks — usually none — when
`0 <= index+count <= len`, because the non-negative end bound is no longer
relative to the end of the list. -/
theorem read_buffer_neg_index (st : TCPConnection) (i c : Int)
    (h1 : -(st.buffer.length : Int) ≤ i) (h2 : i < 0) (hc : 0 ≤ c) :
    read_buffer st (some i) none =
      st.buffer.drop ((st.buffer.length : Int) + i).toNat ∧
    read_buffer st (some i) none ≠ [] ∧
    (i + c < 0 → read_buffer st (some i) (some c) =
      (st.buffer.drop ((st.buffer.length : Int) + i).toNat).take c.toNat) ∧
    (0 ≤ i + c → i + c ≤ (st.buffer.length : Int) →
      read_buffer st (some i) (some c) =
        (st.buffer.drop ((st.buffer.length : Int) + i).toNat).take
          (c - (st.buffer.length : Int)).toNat) ∧
    ((st.buffer.length : Int) ≤ i + c → read_buffer st (some i) (some c) =
      st.buffer.drop ((st.buffer.length : Int) + i).toNat) := by
  have hlen : 0 < st.buffer.length := by omega
  have hguard : i < (st.buffer.length : Int) := by omega
  have hs : pyNormIdx st.buffer.length i = ((st.buffer.length : Int) + i).toNat := by
    unfold pyNormIdx
    rw [if_pos h2]
  have h3 : read_buffer st (some i) none =
      st.buffer.drop ((st.buffer.length : Int) + i).toNat := by
    simp only [read_buffer]
    rw [if_pos hguard]
    unfold pySlice
    rw [hs]
    have he : pyNormIdx st.buffer.length ((st.buffer.length : Nat) : Int) =
        st.buffer.length := by
      unfold pyNormIdx
      rw [if_neg (by omega)]
      omega
    rw [he]
    exact List.take_of_length_le (by simp)
  refine ⟨h3, ?_, ?_, ?_, ?_⟩
  · rw [h3]
    have : (st.buffer.drop ((st.buffer.length : Int) + i).toNat).length ≠ 0 := by
      rw [List.length_drop]; omega
    exact fun hnil => this (by rw [hnil]; rfl)
  · intro hneg
    simp only [read_buffer]
    rw [if_pos hguard]
    unfold pySlice
    rw [hs]
    have he : pyNormIdx st.buffer.length (min (i + c) (st.buffer.length : Int)) =
        ((st.buffer.length : Int) + (i + c)).toNat := by
      unfold pyNormIdx
      rw [if_pos (by omega)]
      omega
    rw [he, List.take_eq_take]
    simp only [List.length_take, List.length_drop]
    omega
  · intro hnn hle
    simp only [read_buffer]
    rw [if_pos hguard]
    unfold pySlice
    rw [hs]
    have he : pyNormIdx st.buffer.length (min (i + c) (st.buffer.length : Int)) =
        (i + c).toNat := by
      unfold pyNormIdx
      rw [if_neg (by omega)]
      omega
    rw [he, List.take_eq_take]
    simp only [List.length_take, List.length_drop]
    omega
  · intro hge
    simp only [read_buffer]
    rw [if_pos hguard]
    unfold pySlice
    rw [hs]
    have he : pyNormIdx st.buffer.length (min (i + c) (st.buffer.length : Int)) =
        st.buffer.length := by
      unfold pyNormIdx
      rw [if_neg (by omega)]
      omega
    rw [he]
    exact List.take_of_length_le (by simp)

theorem read_buffer_neg_index_witness :
    (-(sampleConn.buffer.length : Int) ≤ -1 ∧ (-1 : Int) < 0 ∧ (0 : Int) ≤ 1) ∧
    read_buffer sampleConn (some (-1)) none =
      sampleConn.buffer.drop ((sampleConn.buffer.length : Int) + (-1)).toNat ∧
    read_buffer sampleConn (some (-1)) none ≠ [] := by
  refine ⟨by decide, (read_buffer_neg_index sampleConn (-1) 1 (by decide)
    (by decide) (by decide)).1, (read_buffer_neg_index sampleConn (-1) 1
    (by decide) (by decide) (by decide)).2.1⟩

/-- Claim C9: `clear_buffer` empties the chunk sequence — afterwards
`get_buffer_info` reports zero chunks and zero total bytes — while
`bytes_received`, `bytes_sent`, the connected flag and the trigger set
keep their prior values. -/
theorem clear_buffer_frame (st : TCPConnection) :
    (get_buffer_info (clear_buffer st)).chunks = 0 ∧
    (get_buffer_info (clear_buffer st)).total_bytes = 0 ∧
    (get_buffer_info (clear_buffer st)).bytes_received = st.bytes_received ∧
    (get_buffer_info (clear_buffer st)).bytes_sent = st.bytes_sent ∧
    (clear_buffer st).connected = st.connected ∧
    (clear_buffer st).triggers = st.triggers := by
  simp [get_buffer_info, clear_buffer]

/-- Claim C3: `send` returns false when the connection is not connected,
or when the write raises an I/O error (then also transitioning to
Disconnected); on success it returns true and adds exactly `len(data)` to
`bytes_sent`; on any failure `bytes_sent` is unchanged. -/
theorem send_spec (st : TCPConnection) (data : List Nat) (ioError : Bool) :
    (st.connected = false → (send st data ioError).1 = false) ∧
    (st.connected = true → st.writerPresent = true → ioError = true →
      (send st data ioError).1 = false ∧
      (send st data ioError).2.connected = false) ∧
    (st.connected = true → st.writerPresent = true → ioError = false →
      (send st data ioError).1 = true) ∧
    ((send st data ioError).1 = true →
      (send st data ioError).2.bytes_sent = st.bytes_sent + data.length) ∧
    ((send st data ioError).1 = false →
      (send st data ioError).2.bytes_sent = st.bytes_sent) := by
  cases hc : st.connected <;> cases hw : st.writerPresent <;>
    cases ioError <;> simp [send, hc, hw]

theorem send_spec_witness :
    (send sampleConn [9, 9] false).1 = true ∧
    (send sampleConn [9, 9] false).2.bytes_sent = sampleConn.bytes_sent + 2 := by
  refine ⟨(send_spec sampleConn [9, 9] false).2.2.1 rfl rfl rfl, ?_⟩
  exact (send_spec sampleConn [9, 9] false).2.2.2.1
    ((send_spec sampleConn [9, 9] false).2.2.1 rfl rfl rfl)

theorem send_preserves_bytes_received (st : TCPConnection) (data : List Nat)
    (e : Bool) : (send st data e).2.bytes_received = st.bytes_received := by
  cases hc : st.connected <;> cases hw : st.writerPresent <;> cases e <;>
    simp [send, hc, hw]

theorem send_preserves_buffer (st : TCPConnection) (data : List Nat)
    (e : Bool) : (send st data e).2.buffer = st.buffer := by
  cases hc : st.connected <;> cases hw : st.writerPresent <;> cases e <;>
    simp [send, hc, hw]

theorem send_preserves_triggers (st : TCPConnection) (data : List Nat)
    (e : Bool) : (send st data e).2.triggers = st.triggers := by
  cases hc : st.connected <;> cases hw : st.writerPresent <;> cases e <;>
    simp [send, hc, hw]

theorem checkLoop_preserves_bytes_received
    (srch : List Char → List Char → SearchOutcome) (text : List Char)
    (ts : List (List Char × List Char × List Nat)) :
    ∀ (st : TCPConnection) (errs : List Bool),
      (checkLoop srch text ts st errs).bytes_received = st.bytes_received := by
  induction ts with
  | nil => intro st errs; rfl
  | cons t rest ih =>
    intro st errs
    obtain ⟨pat, tid, resp⟩ := t
    simp only [checkLoop]
    cases srch pat text with
    | err => rfl
    | notFound => exact ih st errs
    | found =>
      rw [ih]
      exact send_preserves_bytes_received st resp (errs.headD false)

/-- Claim C1: at every reachable state, `bytes_received` equals the sum of
the lengths of all chunks ever appended by the receive loop (including the
chunks a later `clear_buffer` removed); every operation preserves the
equality and only a buffer append changes `bytes_received`. -/
theorem bytes_received_invariant {st : TCPConnection} {h : List (List Nat)}
    (hr : Reachable st h) : st.bytes_received = (h.map List.length).sum := by
  induction hr with
  | init cid host port => rfl
  | connect_ok _ ih => simpa using ih
  | connect_fail _ ih => simpa using ih
  | recv data srch errs hne hc _ ih =>
    rw [checkTriggers, checkLoop_preserves_bytes_received]
    simpa using ih
  | remote_close _ ih => simpa using ih
  | read_error _ ih => simpa using ih
  | send_op data ioError _ ih => rw [send_preserves_bytes_received]; exact ih
  | clear_op _ ih => simpa [clear_buffer] using ih
  | add_trigger_op tid pat resp _ ih =>
    rename_i st' h' hr'
    unfold add_trigger
    rcases hx : st'.triggers.any (fun t => t.1 = pat) <;> simp [hx] <;> exact ih
  | remove_trigger_op tid _ ih =>
    rename_i st' h' hr'
    unfold remove_trigger
    rcases hx : removeFirstTid tid st'.triggers with _ | l <;> simp [hx] <;> exact ih
  | disconnect_op _ ih => simpa [disconnect] using ih

theorem bytes_received_invariant_witness :
    (clear_buffer (checkTriggers
      { (mkTCPConnection ['a'] ['h'] 1) with
        connected := true, writerPresent := true,
        buffer := [[1, 2, 3]], bytes_received := 3 }
      [1, 2, 3] (fun _ _ => SearchOutcome.notFound) [])).bytes_received =
      (([[1, 2, 3]] : List (List Nat)).map List.length).sum :=
  bytes_received_invariant (Reachable.clear_op (Reachable.recv [1, 2, 3]
    (fun _ _ => SearchOutcome.notFound) [] (by decide) rfl
    (Reachable.connect_ok (Reachable.init ['a'] ['h'] 1))))

theorem send_success_fields (st : TCPConnection) (data : List Nat)
    (hc : st.connected = true) (hw : st.writerPresent = true) :
    (send st data false).2.connected = true ∧
    (send st data false).2.writerPresent = true ∧
    (send st data false).2.wire = st.wire ++ [data] := by
  simp [send, hc, hw]

theorem send_send_calls (st : TCPConnection) (data : List Nat) (e : Bool) :
    (send st data e).2.send_calls = st.send_calls ++ [data] := by
  cases hc : st.connected <;> cases hw : st.writerPresent <;> cases e <;>
    simp [send, hc, hw]

theorem checkLoop_wire (srch : List Char → List Char → SearchOutcome)
    (text : List Char) (ts : List (List Char × List Char × List Nat)) :
    ∀ st : TCPConnection, st.connected = true → st.writerPresent = true →
      (∀ t ∈ ts, srch t.1 text ≠ SearchOutcome.err) →
      (checkLoop srch text ts st []).wire = st.wire ++
        (ts.filter (fun t =>
          decide (srch t.1 text = SearchOutcome.found))).map (fun t => t.2.2) := by
  induction ts with
  | nil => intro st _ _ _; simp [checkLoop]
  | cons t rest ih =>
    intro st hc hw hok
    obtain ⟨pat, tid, resp⟩ := t
    cases hsr : srch pat text with
    | err => exact absurd hsr (hok (pat, tid, resp) (List.mem_cons_self _ _))
    | notFound =>
      simp only [checkLoop, hsr]
      rw [ih st hc hw (fun t ht => hok t (List.mem_cons_of_mem _ ht))]
      simp [List.filter_cons, hsr]
    | found =>
      simp only [checkLoop, hsr, List.headD_nil, List.tail_nil]
      obtain ⟨hc2, hw2, hwire⟩ := send_success_fields st resp hc hw
      rw [ih _ hc2 hw2 (fun t ht => hok t (List.mem_cons_of_mem _ ht))]
      rw [hwire]
      simp [List.filter_cons, hsr]

/-- Claim C8: a matching trigger's stored response bytes are sent verbatim
(no capture-group substitution happens at dispatch time), and when several
triggers match one chunk all of their responses go out, in
registration-iteration order of the trigger dict. -/
theorem trigger_dispatch_order (st : TCPConnection) (data : List Nat)
    (srch : List Char → List Char → SearchOutcome)
    (hok : ∀ t ∈ st.triggers,
      srch t.1 (utf8DecodeIgnore data) ≠ SearchOutcome.err)
    (hc : st.connected = true) (hw : st.writerPresent = true) :
    (checkTriggers st data srch []).wire = st.wire ++
      (st.triggers.filter (fun t =>
        decide (srch t.1 (utf8DecodeIgnore data) = SearchOutcome.found))).map
        (fun t => t.2.2) :=
  checkLoop_wire srch (utf8DecodeIgnore data) st.triggers st hc hw hok

/-- Triggers and search oracle used by the C8 witness: patterns `a` and
`c` match the chunk, pattern `b` does not. -/
def c8Conn : TCPConnection :=
  { sampleConn with
    triggers := [(['a'], ['t', '1'], [1]),
                 (['b'], ['t', '2'], [2]),
                 (['c'], ['t', '3'], [3])] }

def srch8 (p : List Char) (_ : List Char) : SearchOutcome :=
  if p = ['b'] then SearchOutcome.notFound else SearchOutcome.found

theorem trigger_dispatch_order_witness :
    (checkTriggers c8Conn [72] srch8 []).wire = [[1], [3]] := by
  rw [trigger_dispatch_order c8Conn [72] srch8 (by decide) rfl rfl]
  decide

theorem checkLoop_send_calls (srch : List Char → List Char → SearchOutcome)
    (text : List Char) (ts : List (List Char × List Char × List Nat)) :
    ∀ (st : TCPConnection) (errs : List Bool),
      (∀ t ∈ ts, srch t.1 text ≠ SearchOutcome.err) →
      (checkLoop srch text ts st errs).send_calls = st.send_calls ++
        (ts.filter (fun t =>
          decide (srch t.1 text = SearchOutcome.found))).map (fun t => t.2.2) := by
  induction ts with
  | nil => intro st errs _; simp [checkLoop]
  | cons t rest ih =>
    intro st errs hok
    obtain ⟨pat, tid, resp⟩ := t
    cases hsr : srch pat text with
    | err => exact absurd hsr (hok (pat, tid, resp) (List.mem_cons_self _ _))
    | notFound =>
      simp only [checkLoop, hsr]
      rw [ih st errs (fun t ht => hok t (List.mem_cons_of_mem _ ht))]
      simp [List.filter_cons, hsr]
    | found =>
      simp only [checkLoop, hsr]
      rw [ih _ _ (fun t ht => hok t (List.mem_cons_of_mem _ ht))]
      rw [send_send_calls]
      simp [List.filter_cons, hsr]

theorem checkLoop_stops_at_err (srch : List Char → List Char → SearchOutcome)
    (text pat tid : List Char) (resp : List Nat)
    (ts2 : List (List Char × List Char × List Nat))
    (herr : srch pat text = SearchOutcome.err) :
    ∀ (ts1 : List (List Char × List Char × List Nat)) (st : TCPConnection)
      (errs : List Bool),
      checkLoop srch text (ts1 ++ (pat, tid, resp) :: ts2) st errs =
        checkLoop srch text ts1 st errs := by
  intro ts1
  induction ts1 with
  | nil => intro st errs; simp [checkLoop, herr]
  | cons t rest ih =>
    intro st errs
    obtain ⟨p, i, r⟩ := t
    simp only [List.cons_append, checkLoop]
    cases hsp : srch p text with
    | err => rfl
    | notFound => exact ih st errs
    | found => exact ih _ _

/-- Counterexample to claim C7 as stated: two registered triggers, the
first one's pattern test raises (e.g. an invalid regex), the second one's
pattern matches the chunk — yet nothing at all is dispatched, because the
`try` of `_check_triggers` wraps the whole iteration. -/
def c7Conn : TCPConnection :=
  { sampleConn with
    triggers := [(['p'], ['t', '1'], [1]), (['q'], ['t', '2'], [2])] }

def srch7 (p : List Char) (_ : List Char) : SearchOutcome :=
  if p = ['p'] then SearchOutcome.err else SearchOutcome.found

theorem trigger_error_aborts_counterexample :
    srch7 ['q'] (utf8DecodeIgnore [72]) = SearchOutcome.found ∧
    (checkTriggers c7Conn [72] srch7 []).send_calls = c7Conn.send_calls ∧
    (checkTriggers c7Conn [72] srch7 []).wire = c7Conn.wire := by decide

/-- Claim C7 (amended): a send failure while dispatching one trigger does
not prevent the remaining triggers from being evaluated — every matching
trigger's response send is still attempted, whatever the I/O-error oracle
and connection state; but an exception raised during one trigger's pattern
test aborts the evaluation of all the triggers after it for that chunk,
because the `try`/`except` wraps the whole loop rather than one
iteration. -/
theorem trigger_failure_isolation (st : TCPConnection) (data : List Nat)
    (srch : List Char → List Char → SearchOutcome) (errs : List Bool) :
    ((∀ t ∈ st.triggers,
        srch t.1 (utf8DecodeIgnore data) ≠ SearchOutcome.err) →
      (checkTriggers st data srch errs).send_calls = st.send_calls ++
        (st.triggers.filter (fun t =>
          decide (srch t.1 (utf8DecodeIgnore data) = SearchOutcome.found))).map
          (fun t => t.2.2)) ∧
    (∀ (ts1 ts2 : List (List Char × List Char × List Nat))
        (pat tid : List Char) (resp : List Nat),
      st.triggers = ts1 ++ (pat, tid, resp) :: ts2 →
      srch pat (utf8DecodeIgnore data) = SearchOutcome.err →
      checkTriggers st data srch errs =
        checkLoop srch (utf8DecodeIgnore data) ts1 st errs) := by
  constructor
  · intro hok
    exact checkLoop_send_calls srch (utf8DecodeIgnore data) st.triggers st errs hok
  · intro ts1 ts2 pat tid resp hsplit herr
    unfold checkTriggers
    rw [hsplit]
    exact checkLoop_stops_at_err srch (utf8DecodeIgnore data) pat tid resp ts2
      herr ts1 st errs

def srch7b (_ : List Char) (_ : List Char) : SearchOutcome := SearchOutcome.found

theorem trigger_failure_isolation_witness :
    (checkTriggers c7Conn [72] srch7b [true]).send_calls = [[1], [2]] := by
  rw [(trigger_failure_isolation c7Conn [72] srch7b [true]).1 (by decide)]
  decide

theorem not_hex_of_pyspace (c : Char) (h : isPySpace c = true) :
    isHexDigit c = false := by
  simp only [isPySpace, decide_eq_true_eq] at h
  simp only [isHexDigit, decide_eq_false_iff_not]
  omega

theorem not_pyspace_of_hex (c : Char) (h : isHexDigit c = true) :
    isPySpace c = false := by
  simp only [isHexDigit, decide_eq_true_eq] at h
  simp only [isPySpace, decide_eq_false_iff_not]
  omega

theorem bytesFromHex_pair (c1 c2 : Char) (rest : List Char)
    (h1 : isHexDigit c1 = true) (h2 : isHexDigit c2 = true) :
    bytesFromHex (c1 :: c2 :: rest) =
      (bytesFromHex rest).map (fun bs => (hexVal c1 * 16 + hexVal c2) :: bs) := by
  simp [bytesFromHex, not_pyspace_of_hex c1 h1, h1, h2]

theorem bytesFromHex_some (l : List Char) (bs : List Nat)
    (h : bytesFromHex l = some bs) :
    (∀ c ∈ l, isHexDigit c = true ∨ isPySpace c = true) ∧
    (l.filter (fun c => isHexDigit c)).length % 2 = 0 := by
  induction l using bytesFromHex.induct generalizing bs with
  | case1 =>
    exact ⟨fun c hc => absurd hc (List.not_mem_nil c), by simp⟩
  | case2 c1 rest hsp ih =>
    have h2 : bytesFromHex rest = some bs := by
      cases rest with
      | nil => rwa [bytesFromHex.eq_2, if_pos hsp] at h
      | cons c2 rest2 => rwa [bytesFromHex.eq_3, if_pos hsp] at h
    obtain ⟨hall, hev⟩ := ih bs h2
    refine ⟨?_, ?_⟩
    · intro c hc
      rcases hc with _ | ⟨_, hc⟩
      · exact Or.inr hsp
      · exact hall c hc
    · rw [List.filter_cons_of_neg (by simp [not_hex_of_pyspace c1 hsp])]
      exact hev
  | case3 c1 hnsp =>
    rw [bytesFromHex.eq_2, if_neg hnsp] at h
    cases h
  | case4 c1 hnsp c2 rest2 hhex ih =>
    rw [bytesFromHex_pair c1 c2 rest2 hhex.1 hhex.2] at h
    have h2 : bytesFromHex rest2 = some bs.tail := by
      cases hbs : bytesFromHex rest2 with
      | none => rw [hbs] at h; cases h
      | some bs2 => rw [hbs] at h; simp at h; simp [← h]
    obtain ⟨hall, hev⟩ := ih _ h2
    refine ⟨?_, ?_⟩
    · intro c hc
      rcases hc with _ | ⟨_, hc⟩
      · exact Or.inl hhex.1
      · rcases hc with _ | ⟨_, hc⟩
        · exact Or.inl hhex.2
        · exact hall c hc
    · rw [List.filter_cons_of_pos (by simp [hhex.1]),
        List.filter_cons_of_pos (by simp [hhex.2])]
      simp only [List.length_cons]
      omega
  | case5 c1 hnsp c2 rest2 hnhex =>
    rw [bytesFromHex.eq_3, if_neg hnsp, if_neg hnhex] at h
    cases h

/-- Counterexample to claim C4 as stated: on input `\xZZ` the escape-mode
branch is taken (the string contains `\x`), no escape matches, the whole
string becomes one literal part of shape `\x??`, and `int("ZZ", 16)`
raises an uncaught `ValueError` — `decode_hex` does not return a byte
sequence. -/
theorem parse_hex_raises_counterexample :
    parse_hex_string ['\\', 'x', 'Z', 'Z'] = Except.error () := by decide

/-- Claim C4 (amended): whenever the plain hex-pair syntax is attempted —
i.e. the input does not contain the two-character substring `\x` —
`decode_hex` always returns a byte sequence: the `bytes.fromhex` result
when the cleaned string parses as hex pairs (ASCII whitespace between
pairs is skipped), and otherwise — e.g. on a character that is neither a
hex digit nor whitespace, or an odd number of hex digits — the fallback:
the original, unmodified input encoded as raw UTF-8.  (Only in the
escape-mode branch can a malformed four-character `\x??` fragment raise.) -/
theorem parse_hex_plain_fallback (s : List Char)
    (hno : containsBX s = false) :
    (∃ bs, parse_hex_string s = Except.ok bs) ∧
    (∀ bs, bytesFromHex (cleanHex s) = some bs →
      parse_hex_string s = Except.ok bs) ∧
    ((∃ c ∈ cleanHex s, isHexDigit c = false ∧ isPySpace c = false) ∨
        ((cleanHex s).filter (fun c => isHexDigit c)).length % 2 = 1 →
      parse_hex_string s = Except.ok (utf8Encode s)) := by
  refine ⟨?_, ?_, ?_⟩
  · cases hbs : bytesFromHex (cleanHex s) with
    | none => exact ⟨utf8Encode s, by simp [parse_hex_string, hno, hbs]⟩
    | some bs => exact ⟨bs, by simp [parse_hex_string, hno, hbs]⟩
  · intro bs hbs
    simp [parse_hex_string, hno, hbs]
  · intro hbad
    have hnone : bytesFromHex (cleanHex s) = none := by
      cases hbs : bytesFromHex (cleanHex s) with
      | none => rfl
      | some bs =>
        obtain ⟨hall, hev⟩ := bytesFromHex_some _ _ hbs
        rcases hbad with ⟨c, hc, hcb⟩ | hodd
        · rcases hall c hc with hx | hx
          · rw [hx] at hcb
            exact absurd hcb.1 (by simp)
          · rw [hx] at hcb
            exact absurd hcb.2 (by simp)
        · omega
    simp [parse_hex_string, hno, hnone]

theorem parse_hex_plain_fallback_witness :
    parse_hex_string ['z', 'z'] = Except.ok (utf8Encode ['z', 'z']) ∧
    parse_hex_string ['4', '8', '\t', '6', '5'] = Except.ok [72, 101] := by
  constructor
  · exact (parse_hex_plain_fallback ['z', 'z'] (by decide)).2.2 (by decide)
  · exact (parse_hex_plain_fallback ['4', '8', '\t', '6', '5'] (by decide)).2.1
      [72, 101] (by decide)

theorem hexDigitChar_facts : ∀ n : Nat, n < 16 →
    isHexDigit (hexDigitChar n) = true ∧ hexVal (hexDigitChar n) = n ∧
    hexDigitChar n ≠ '\\' ∧ hexDigitChar n ≠ 'x' ∧ hexDigitChar n ≠ 'X' ∧
    hexDigitChar n ≠ ' ' ∧ hexDigitChar n ≠ Char.ofNat 10 ∧
    hexDigitChar n ≠ Char.ofNat 13 := by decide

theorem remove2_of_not_mem (a b : Char) (l : List Char) (h : b ∉ l) :
    remove2 a b l = l := by
  induction l with
  | nil => rfl
  | cons c rest ih =>
    cases rest with
    | nil => rfl
    | cons d rest2 =>
      simp only [remove2]
      rw [if_neg (by rintro ⟨h1, h2⟩; exact h (by simp [h2]))]
      rw [ih (fun hb => h (List.mem_cons_of_mem _ hb))]

theorem containsBX_eq_false (l : List Char) (h : '\\' ∉ l) :
    containsBX l = false := by
  induction l with
  | nil => rfl
  | cons c rest ih =>
    cases rest with
    | nil => rfl
    | cons d rest2 =>
      simp only [containsBX]
      rw [ih (fun hb => h (List.mem_cons_of_mem _ hb))]
      have hc : c ≠ '\\' := fun hc => h (by simp [hc])
      simp [hc]

theorem encode_hex_chars (bs : List Nat) (h : ∀ b ∈ bs, b < 256) :
    ∀ c ∈ encode_hex bs, ∃ n, n < 16 ∧ c = hexDigitChar n := by
  induction bs with
  | nil => intro c hc; cases hc
  | cons b rest ih =>
    intro c hc
    have hb : b < 256 := h b (List.mem_cons_self _ _)
    simp only [encode_hex, List.flatMap_cons] at hc
    rcases hc with _ | ⟨_, hc⟩
    · exact ⟨b / 16, by omega, rfl⟩
    · rcases hc with _ | ⟨_, hc⟩
      · exact ⟨b % 16, by omega, rfl⟩
      · exact ih (fun x hx => h x (List.mem_cons_of_mem _ hx)) c hc

theorem bytesFromHex_encode_hex (bs : List Nat) (h : ∀ b ∈ bs, b < 256) :
    bytesFromHex (encode_hex bs) = some bs := by
  induction bs with
  | nil => rfl
  | cons b rest ih =>
    have hb : b < 256 := h b (List.mem_cons_self _ _)
    have h1 := hexDigitChar_facts (b / 16) (by omega)
    have h2 := hexDigitChar_facts (b % 16) (by omega)
    have ih2 : bytesFromHex
        (rest.flatMap (fun b => [hexDigitChar (b / 16), hexDigitChar (b % 16)])) =
        some rest := ih (fun x hx => h x (List.mem_cons_of_mem _ hx))
    simp only [encode_hex, List.flatMap_cons, List.cons_append, List.nil_append]
    rw [bytesFromHex_pair _ _ _ h1.1 h2.1]
    rw [ih2]
    rw [h1.2.1, h2.2.1]
    have : b / 16 * 16 + b % 16 = b := by omega
    rw [this]
    rfl

/-- Claim C5: decoding is a left inverse of hex encoding —
`decode_hex(encode_hex(b)) == b` for every byte sequence `b`, where
`encode_hex` is the lowercase pair encoding `bytes.hex()` used when
reading the buffer in hex format. -/
theorem encode_hex_roundtrip (bs : List Nat) (h : ∀ b ∈ bs, b < 256) :
    parse_hex_string (encode_hex bs) = Except.ok bs := by
  have hchars := encode_hex_chars bs h
  have hnb : '\\' ∉ encode_hex bs := by
    intro hm
    obtain ⟨n, hn, he⟩ := hchars _ hm
    exact (hexDigitChar_facts n hn).2.2.1 he.symm
  have hclean : cleanHex (encode_hex bs) = encode_hex bs := by
    unfold cleanHex
    have hx : remove2 '0' 'x' (encode_hex bs) = encode_hex bs := by
      refine remove2_of_not_mem _ _ _ (fun hm => ?_)
      obtain ⟨n, hn, he⟩ := hchars _ hm
      exact (hexDigitChar_facts n hn).2.2.2.1 he.symm
    rw [hx]
    have hX : remove2 '0' 'X' (encode_hex bs) = encode_hex bs := by
      refine remove2_of_not_mem _ _ _ (fun hm => ?_)
      obtain ⟨n, hn, he⟩ := hchars _ hm
      exact (hexDigitChar_facts n hn).2.2.2.2.1 he.symm
    rw [hX]
    have f1 : List.filter (fun c => decide (c ≠ ' ')) (encode_hex bs) =
        encode_hex bs := by
      refine List.filter_eq_self.mpr (fun c hc => ?_)
      obtain ⟨n, hn, he⟩ := hchars _ hc
      subst he
      simp [(hexDigitChar_facts n hn).2.2.2.2.2.1]
    rw [f1]
    have f2 : List.filter (fun c => decide (c ≠ Char.ofNat 10)) (encode_hex bs) =
        encode_hex bs := by
      refine List.filter_eq_self.mpr (fun c hc => ?_)
      obtain ⟨n, hn, he⟩ := hchars _ hc
      subst he
      simp [(hexDigitChar_facts n hn).2.2.2.2.2.2.1]
    rw [f2]
    refine List.filter_eq_self.mpr (fun c hc => ?_)
    obtain ⟨n, hn, he⟩ := hchars _ hc
    subst he
    simp [(hexDigitChar_facts n hn).2.2.2.2.2.2.2]
  have hno : containsBX (encode_hex bs) = false := containsBX_eq_false _ hnb
  simp only [parse_hex_string, hno]
  rw [hclean, bytesFromHex_encode_hex bs h]
  simp

theorem encode_hex_roundtrip_witness :
    parse_hex_string (encode_hex [0, 171, 255]) = Except.ok [0, 171, 255] :=
  encode_hex_roundtrip [0, 171, 255] (by decide)

/-- One fragment of an escape-syntax input as claim C6 describes it: a run
of literal text between `\xNN` boundaries, or one `\xNN` escape carrying
its two hex-digit characters. -/
inductive HexFrag
  | lit (s : List Char)
  | esc (a b : Char)
deriving DecidableEq

/-- The concrete string a fragment denotes. -/
def fragRender : HexFrag → List Char
  | .lit s => s
  | .esc a b => ['\\', 'x', a, b]

def renderFrags (fs : List HexFrag) : List Char := fs.flatMap fragRender

/-- The bytes claim C6 assigns to a fragment: one hex byte for an escape,
raw UTF-8 bytes for a literal run. -/
def fragBytes : HexFrag → List Nat
  | .lit s => utf8Encode s
  | .esc a b => [hexVal a * 16 + hexVal b]

/-- A well-formed fragment, as the split produces them: a literal run is
nonempty, contains no `\xNN` escape of its own (its scan is all-literal),
and is not itself of the four-character `\x??` shape that the
mixed-content loop would feed to `int(part[2:], 16)` instead of encoding
as text; an escape carries two hex digits. -/
def fragOK : HexFrag → Bool
  | .lit s => decide (s ≠ []) && decide (escSplit s = s.map Sum.inl) &&
      !(isEscShape s)
  | .esc a b => isHexDigit a && isHexDigit b

def isLit : HexFrag → Bool
  | .lit _ => true
  | .esc _ _ => false

/-- Literal runs are maximal: no two adjacent fragments are both literal. -/
def noAdjLits : List HexFrag → Bool
  | [] => true
  | [_] => true
  | f :: g :: rest => (!(isLit f && isLit g)) && noAdjLits (g :: rest)

/-- The scan tokens a fragment contributes. -/
def fragTokens : HexFrag → List (Char ⊕ (Char × Char))
  | .lit s => s.map Sum.inl
  | .esc a b => [Sum.inr (a, b)]

/-- The match byte values a fragment contributes. -/
def fragEscBytes : HexFrag → List Nat
  | .lit _ => []
  | .esc a b => [hexVal a * 16 + hexVal b]

/-- The four-character lookahead condition of the escape scan. -/
def isBXMatch : List Char → Prop
  | c :: d :: e :: f :: _ =>
    c = '\\' ∧ d = 'x' ∧ isHexDigit e = true ∧ isHexDigit f = true
  | _ => False

theorem escSplit_cons_general (c : Char) (t : List Char)
    (h : ¬ isBXMatch (c :: t)) : escSplit (c :: t) = .inl c :: escSplit t := by
  cases t with
  | nil => rfl
  | cons d t2 =>
    cases t2 with
    | nil => rfl
    | cons e t3 =>
      cases t3 with
      | nil => rfl
      | cons f t4 =>
        have h2 : ¬ (c = '\\' ∧ d = 'x' ∧ isHexDigit e = true ∧
            isHexDigit f = true) := fun hc => h hc
        simp only [escSplit]
        rw [if_neg h2]

theorem escSplit_inert_append (s t : List Char)
    (hs : escSplit s = s.map Sum.inl)
    (ht : t = [] ∨ ∃ a b t2, isHexDigit a = true ∧ isHexDigit b = true ∧
      t = '\\' :: 'x' :: a :: b :: t2) :
    escSplit (s ++ t) = s.map Sum.inl ++ escSplit t := by
  induction s with
  | nil => simp
  | cons c s2 ih =>
    have hnm0 : ¬ isBXMatch (c :: s2) := by
      intro hm
      rcases s2 with _ | ⟨d, _ | ⟨e, _ | ⟨f, r⟩⟩⟩
      · exact hm
      · exact hm
      · exact hm
      · simp only [isBXMatch] at hm
        obtain ⟨h1, h2, h3, h4⟩ := hm
        rw [show escSplit (c :: d :: e :: f :: r) =
          Sum.inr (e, f) :: escSplit r from by
            simp only [escSplit]
            rw [if_pos ⟨h1, h2, h3, h4⟩]] at hs
        simp at hs
    have hs2 : escSplit s2 = s2.map Sum.inl := by
      rw [escSplit_cons_general c s2 hnm0] at hs
      simpa using hs
    have hnm : ¬ isBXMatch (c :: (s2 ++ t)) := by
      rcases s2 with _ | ⟨d, _ | ⟨e, _ | ⟨f, r⟩⟩⟩
      · rcases ht with rfl | ⟨a, b, t2, ha, hb, rfl⟩
        · simp [isBXMatch]
        · intro hm
          simp only [List.nil_append, isBXMatch] at hm
          exact absurd hm.2.1 (by decide)
      · rcases ht with rfl | ⟨a, b, t2, ha, hb, rfl⟩
        · simp [isBXMatch]
        · intro hm
          simp only [List.cons_append, List.nil_append, isBXMatch] at hm
          exact absurd hm.2.2.1 (by decide)
      · rcases ht with rfl | ⟨a, b, t2, ha, hb, rfl⟩
        · simp [isBXMatch]
        · intro hm
          simp only [List.cons_append, List.nil_append, isBXMatch] at hm
          exact absurd hm.2.2.2 (by decide)
      · intro hm
        simp only [List.cons_append, isBXMatch] at hm
        exact hnm0 (by simp only [isBXMatch]; exact hm)
    rw [List.cons_append, escSplit_cons_general c (s2 ++ t) hnm]
    rw [ih hs2]
    simp

theorem escSplit_esc (a b : Char) (t : List Char) (ha : isHexDigit a = true)
    (hb : isHexDigit b = true) :
    escSplit ('\\' :: 'x' :: a :: b :: t) = Sum.inr (a, b) :: escSplit t := by
  simp [escSplit, ha, hb]

theorem noAdjLits_tail (f : HexFrag) (rest : List HexFrag)
    (h : noAdjLits (f :: rest) = true) : noAdjLits rest = true := by
  cases rest with
  | nil => rfl
  | cons g rest2 =>
    simp only [noAdjLits, Bool.and_eq_true] at h
    exact h.2

theorem escSplit_renderFrags (fs : List HexFrag)
    (hok : ∀ f ∈ fs, fragOK f = true) (hadj : noAdjLits fs = true) :
    escSplit (renderFrags fs) = fs.flatMap fragTokens := by
  induction fs with
  | nil => rfl
  | cons f rest ih =>
    have hfr : ∀ g ∈ rest, fragOK g = true :=
      fun g hg => hok g (List.mem_cons_of_mem _ hg)
    have hadjr := noAdjLits_tail f rest hadj
    cases f with
    | lit s =>
      have hs := hok (HexFrag.lit s) (List.mem_cons_self _ _)
      simp only [fragOK, Bool.and_eq_true, decide_eq_true_eq] at hs
      obtain ⟨⟨hne, hinert⟩, hshape⟩ := hs
      have ht : renderFrags rest = [] ∨ ∃ a b t2, isHexDigit a = true ∧
          isHexDigit b = true ∧
          renderFrags rest = '\\' :: 'x' :: a :: b :: t2 := by
        cases rest with
        | nil => exact Or.inl rfl
        | cons g rest2 =>
          cases g with
          | lit s2 =>
            exfalso
            simp [noAdjLits, isLit] at hadj
          | esc a b =>
            have hg := hok (HexFrag.esc a b)
              (List.mem_cons_of_mem _ (List.mem_cons_self _ _))
            simp only [fragOK, Bool.and_eq_true] at hg
            exact Or.inr ⟨a, b, renderFrags rest2, hg.1, hg.2, rfl⟩
      simp only [renderFrags, List.flatMap_cons, fragRender]
      rw [escSplit_inert_append s _ hinert
        (by rw [show (rest.flatMap fragRender) = renderFrags rest from rfl]
            exact ht)]
      rw [show (rest.flatMap fragRender) = renderFrags rest from rfl, ih hfr hadjr]
      simp [fragTokens]
    | esc a b =>
      have hs := hok (HexFrag.esc a b) (List.mem_cons_self _ _)
      simp only [fragOK, Bool.and_eq_true] at hs
      simp only [renderFrags, List.flatMap_cons, fragRender, List.cons_append,
        List.nil_append]
      rw [escSplit_esc a b _ hs.1 hs.2]
      rw [show (rest.flatMap fragRender) = renderFrags rest from rfl, ih hfr hadjr]
      simp [fragTokens]

theorem escMatches_append (u v : List (Char ⊕ (Char × Char))) :
    escMatches (u ++ v) = escMatches u ++ escMatches v := by
  simp [escMatches, List.filterMap_append]

theorem escMatches_map_inl (s : List Char) :
    escMatches (s.map Sum.inl) = [] := by
  induction s with
  | nil => rfl
  | cons c s2 ih => simp [escMatches]

theorem escMatches_flatMap (fs : List HexFrag) :
    escMatches (fs.flatMap fragTokens) = fs.flatMap fragEscBytes := by
  induction fs with
  | nil => rfl
  | cons f rest ih =>
    cases f with
    | lit s =>
      simp only [List.flatMap_cons, fragTokens, escMatches_append,
        escMatches_map_inl, fragEscBytes, List.nil_append]
      exact ih
    | esc a b =>
      simp only [List.flatMap_cons, fragTokens, escMatches_append,
        fragEscBytes]
      rw [ih]
      rfl

theorem pure_remaining (fs : List HexFrag) (h : ∀ f ∈ fs, isLit f = false) :
    (fs.flatMap fragTokens).map escNul =
      List.replicate (escMatches (fs.flatMap fragTokens)).length
        (Char.ofNat 0) := by
  induction fs with
  | nil => rfl
  | cons f rest ih =>
    cases f with
    | lit s => exact absurd (h (HexFrag.lit s) (List.mem_cons_self _ _)) (by simp [isLit])
    | esc a b =>
      simp only [List.flatMap_cons, fragTokens, List.cons_append,
        List.nil_append, List.map_cons, escNul]
      rw [ih (fun g hg => h g (List.mem_cons_of_mem _ hg))]
      rw [show escMatches (Sum.inr (a, b) :: rest.flatMap fragTokens) =
        (hexVal a * 16 + hexVal b) :: escMatches (rest.flatMap fragTokens)
        from rfl]
      simp [List.replicate_succ]

theorem matches_len_le (sp : List (Char ⊕ (Char × Char))) :
    (escMatches sp).length ≤ sp.length :=
  List.length_filterMap_le _ _

theorem matches_len_lt (fs : List HexFrag)
    (hok : ∀ f ∈ fs, fragOK f = true) (hl : fs.any isLit = true) :
    (escMatches (fs.flatMap fragTokens)).length <
      (fs.flatMap fragTokens).length := by
  induction fs with
  | nil => simp at hl
  | cons f rest ih =>
    cases f with
    | lit s =>
      have hs := hok (HexFrag.lit s) (List.mem_cons_self _ _)
      simp only [fragOK, Bool.and_eq_true, decide_eq_true_eq] at hs
      obtain ⟨⟨hne, hinert⟩, hshape⟩ := hs
      have hlen : 1 ≤ s.length := by
        cases s with
        | nil => exact absurd rfl hne
        | cons _ _ => simp
      simp only [List.flatMap_cons, fragTokens, escMatches_append,
        escMatches_map_inl, List.nil_append, List.length_append,
        List.length_map]
      have := matches_len_le (rest.flatMap fragTokens)
      omega
    | esc a b =>
      have hrest : rest.any isLit = true := by
        simpa [isLit] using hl
      have := ih (fun g hg => hok g (List.mem_cons_of_mem _ hg)) hrest
      simp only [List.flatMap_cons, fragTokens, List.cons_append,
        List.nil_append]
      rw [show escMatches (Sum.inr (a, b) :: rest.flatMap fragTokens) =
        (hexVal a * 16 + hexVal b) :: escMatches (rest.flatMap fragTokens)
        from rfl]
      simp only [List.length_cons]
      omega

theorem groupLitsAux_map_inl (s : List Char) :
    ∀ (acc : List Char) (t : List (Char ⊕ (Char × Char))),
      groupLitsAux acc (s.map Sum.inl ++ t) =
        groupLitsAux (s.reverse ++ acc) t := by
  induction s with
  | nil => intro acc t; simp
  | cons c s2 ih =>
    intro acc t
    rw [List.map_cons, List.cons_append]
    rw [show groupLitsAux acc (Sum.inl c :: (s2.map Sum.inl ++ t)) =
      groupLitsAux (c :: acc) (s2.map Sum.inl ++ t) from rfl]
    rw [ih (c :: acc) t]
    simp

theorem groupLits_frags (fs : List HexFrag)
    (hok : ∀ f ∈ fs, fragOK f = true) (hadj : noAdjLits fs = true) :
    groupLitsAux [] (fs.flatMap fragTokens) = fs.map fragRender := by
  induction fs with
  | nil => rfl
  | cons f rest ih =>
    have hfr : ∀ g ∈ rest, fragOK g = true :=
      fun g hg => hok g (List.mem_cons_of_mem _ hg)
    have hadjr := noAdjLits_tail f rest hadj
    cases f with
    | esc a b =>
      have h1 : (HexFrag.esc a b :: rest).flatMap fragTokens =
          Sum.inr (a, b) :: rest.flatMap fragTokens := by
        simp [fragTokens]
      rw [h1]
      rw [show groupLitsAux [] (Sum.inr (a, b) :: rest.flatMap fragTokens) =
        ['\\', 'x', a, b] :: groupLitsAux [] (rest.flatMap fragTokens) from rfl]
      rw [ih hfr hadjr]
      simp [fragRender]
    | lit s =>
      have hs := hok (HexFrag.lit s) (List.mem_cons_self _ _)
      simp only [fragOK, Bool.and_eq_true, decide_eq_true_eq] at hs
      obtain ⟨⟨hne, hinert⟩, hshape⟩ := hs
      have hsrev : s.reverse.isEmpty = false := by
        cases hrev : s.reverse with
        | nil => exact absurd (by simpa using hrev) hne
        | cons _ _ => rfl
      have h1 : (HexFrag.lit s :: rest).flatMap fragTokens =
          s.map Sum.inl ++ rest.flatMap fragTokens := by
        simp [fragTokens]
      rw [h1]
      rw [groupLitsAux_map_inl s [] (rest.flatMap fragTokens)]
      rw [List.append_nil]
      cases rest with
      | nil =>
        rw [show ([] : List HexFrag).flatMap fragTokens = [] from rfl]
        rw [show groupLitsAux s.reverse [] =
          (if s.reverse.isEmpty then [] else [s.reverse.reverse]) from rfl]
        rw [hsrev]
        simp [fragRender]
      | cons g rest2 =>
        cases g with
        | lit s2 =>
          exfalso
          simp [noAdjLits, isLit] at hadj
        | esc a b =>
          have h2 : (HexFrag.esc a b :: rest2).flatMap fragTokens =
              Sum.inr (a, b) :: rest2.flatMap fragTokens := by
            simp [fragTokens]
          rw [h2]
          rw [show groupLitsAux s.reverse
              (Sum.inr (a, b) :: rest2.flatMap fragTokens) =
            (if s.reverse.isEmpty then
              ['\\', 'x', a, b] :: groupLitsAux [] (rest2.flatMap fragTokens)
            else s.reverse.reverse :: ['\\', 'x', a, b] ::
              groupLitsAux [] (rest2.flatMap fragTokens)) from rfl]
          rw [hsrev]
          have ihx := ih hfr hadjr
          rw [h2] at ihx
          rw [show groupLitsAux [] (Sum.inr (a, b) :: rest2.flatMap fragTokens) =
            ['\\', 'x', a, b] :: groupLitsAux [] (rest2.flatMap fragTokens)
            from rfl] at ihx
          simp only [List.map_cons, fragRender, List.cons.injEq, true_and] at ihx
          simp only [Bool.false_eq_true, if_false, List.reverse_reverse]
          rw [ihx]
          simp [fragRender]

theorem hexVal_lt_16 (c : Char) (_h : isHexDigit c = true) : hexVal c < 16 := by
  unfold hexVal
  split_ifs <;> omega

theorem mixedParse_frags (fs : List HexFrag)
    (hok : ∀ f ∈ fs, fragOK f = true) :
    mixedParse (fs.map fragRender) = Except.ok (fs.flatMap fragBytes) := by
  induction fs with
  | nil => rfl
  | cons f rest ih =>
    have hfr : ∀ g ∈ rest, fragOK g = true :=
      fun g hg => hok g (List.mem_cons_of_mem _ hg)
    cases f with
    | esc a b =>
      have hs := hok (HexFrag.esc a b) (List.mem_cons_self _ _)
      simp only [fragOK, Bool.and_eq_true] at hs
      have hva := hexVal_lt_16 a hs.1
      have hvb := hexVal_lt_16 b hs.2
      simp only [List.map_cons, fragRender, mixedParse]
      rw [if_pos (by simp [isEscShape])]
      rw [show (['\\', 'x', a, b].getD 2 ' ') = a from rfl]
      rw [show (['\\', 'x', a, b].getD 3 ' ') = b from rfl]
      rw [pyIntHex2, if_pos ⟨hs.1, hs.2⟩]
      have hcond : (0 : Int) ≤ (hexVal a : Int) * 16 + (hexVal b : Int) ∧
          (hexVal a : Int) * 16 + (hexVal b : Int) < 256 :=
        ⟨by positivity, by omega⟩
      show (if 0 ≤ (hexVal a : Int) * 16 + (hexVal b : Int) ∧
          (hexVal a : Int) * 16 + (hexVal b : Int) < 256 then
        Except.map
          (fun bs => ((hexVal a : Int) * 16 + (hexVal b : Int)).toNat :: bs)
          (mixedParse (List.map fragRender rest))
      else Except.error ()) =
        Except.ok ((HexFrag.esc a b :: rest).flatMap fragBytes)
      rw [if_pos hcond]
      rw [ih hfr]
      simp only [List.flatMap_cons, fragBytes, Except.map]
      rw [show ((hexVal a : Int) * 16 + (hexVal b : Int)).toNat =
        hexVal a * 16 + hexVal b from by omega]
      rfl
    | lit s =>
      have hs := hok (HexFrag.lit s) (List.mem_cons_self _ _)
      simp only [fragOK, Bool.and_eq_true, decide_eq_true_eq] at hs
      obtain ⟨⟨hne, hinert⟩, hshape⟩ := hs
      simp only [List.map_cons, fragRender, mixedParse]
      rw [if_neg (by simp at hshape; simp [hshape])]
      rw [if_neg (by cases hx : s with
        | nil => exact absurd hx hne
        | cons _ _ => simp)]
      rw [ih hfr]
      simp [List.flatMap_cons, fragBytes, Except.map]

theorem flatMap_escBytes_of_no_lit (fs : List HexFrag)
    (hall : ∀ f ∈ fs, isLit f = false) :
    fs.flatMap fragEscBytes = fs.flatMap fragBytes := by
  induction fs with
  | nil => rfl
  | cons f rest ih =>
    cases f with
    | lit s =>
      exact absurd (hall (HexFrag.lit s) (List.mem_cons_self _ _))
        (by simp [isLit])
    | esc a b =>
      simp only [List.flatMap_cons, fragEscBytes, fragBytes]
      rw [ih (fun g hg => hall g (List.mem_cons_of_mem _ hg))]

/-- Counterexample to claim C6 as stated: the split can produce a literal
fragment of the exact four-character shape `\x??` (its digits not both
hex, else it would have been an escape), and the mixed-content loop feeds
it to `int(part[2:], 16)` instead of encoding it as text.  On `\xG1\x41`
that raises an uncaught `ValueError`; on `\x+5` it yields the single byte
5, not the raw UTF-8 bytes `[92, 120, 43, 53]` of the literal text that
the claim promises. -/
theorem parse_hex_escape_counterexample :
    parse_hex_string ['\\', 'x', 'G', '1', '\\', 'x', '4', '1'] =
      Except.error () ∧
    parse_hex_string ['\\', 'x', '+', '5'] = Except.ok [5] ∧
    utf8Encode ['\\', 'x', '+', '5'] = [92, 120, 43, 53] := by decide

/-- Claim C6 (amended): for an input containing `\x`, decomposed into
maximal non-empty literal runs and `\xNN` escapes: when the whole input is
`\xNN` runs each run becomes one byte, and with literal text interleaved
the string is split on `\xNN` boundaries, each fragment yielding its hex
byte or its raw UTF-8 bytes, in original order — except that a literal
fragment of the exact four-character shape `\x??` is instead passed to
`int(part[2:], 16)` (raising, or yielding one byte), so literal fragments
of that shape are excluded here and settled by the counterexample. -/
theorem parse_hex_escape_mode (fs : List HexFrag)
    (hok : ∀ f ∈ fs, fragOK f = true) (hadj : noAdjLits fs = true)
    (hbx : containsBX (renderFrags fs) = true) :
    parse_hex_string (renderFrags fs) = Except.ok (fs.flatMap fragBytes) := by
  have hsp := escSplit_renderFrags fs hok hadj
  simp only [parse_hex_string, hbx, if_true, hsp]
  cases hl : fs.any isLit with
  | false =>
    have hall : ∀ f ∈ fs, isLit f = false := by
      intro f hf
      cases hx : isLit f with
      | false => rfl
      | true =>
        have hx2 : fs.any isLit = true := List.any_eq_true.mpr ⟨f, hf, hx⟩
        rw [hl] at hx2
        cases hx2
    have hrem := pure_remaining fs hall
    rw [if_neg (fun hcond => hcond.2 hrem)]
    rw [escMatches_flatMap]
    rw [flatMap_escBytes_of_no_lit fs hall]
  | true =>
    have hlt := matches_len_lt fs hok hl
    have h1 : (fs.flatMap fragTokens).map escNul ≠ [] := by
      intro he
      have := congrArg List.length he
      simp only [List.length_map, List.length_nil] at this
      omega
    have h2 : (fs.flatMap fragTokens).map escNul ≠
        List.replicate (escMatches (fs.flatMap fragTokens)).length
          (Char.ofNat 0) := by
      intro he
      have := congrArg List.length he
      simp only [List.length_map, List.length_replicate] at this
      omega
    rw [if_pos ⟨h1, h2⟩]
    rw [groupLits]
    rw [groupLits_frags fs hok hadj]
    exact mixedParse_frags fs hok

/-- The fragment list of the spec example `"Hello\x0D\x0A"`. -/
def helloFrags : List HexFrag :=
  [HexFrag.lit ['H', 'e', 'l', 'l', 'o'], HexFrag.esc '0' 'D',
    HexFrag.esc '0' 'A']

theorem parse_hex_escape_mode_witness :
    renderFrags helloFrags =
      ['H', 'e', 'l', 'l', 'o', '\\', 'x', '0', 'D', '\\', 'x', '0', 'A'] ∧
    parse_hex_string (renderFrags helloFrags) =
      Except.ok [72, 101, 108, 108, 111, 13, 10] := by
  refine ⟨by decide, ?_⟩
  rw [parse_hex_escape_mode helloFrags (by decide) (by decide) (by decide)]
  decide
